import Mathlib

/-!
Verification of the block-summarizer extension (history-summarizer).

The development shallowly embeds the two coexisting implementations:
the browser variant (`src/index.js`, IndexedDB durable store, SHA-256
content hash) and the node variant (`src/script.js`, file-backed durable
store, MD5 content hash).  Pure functions are translated directly;
the module-level mutable caches become explicit `CacheState` values
threaded through the functions; the fallible durable write is driven by
an explicit `DbWriteOutcome` (success, caught open-failure, or uncaught
request-error rejection), durable reads by a `dbOk` flag for the
resolving executions; the HTTP fetch is abstracted by a
`FetchOutcome` value; the cryptographic digest is an abstract
`digest : String → String` parameter (SHA-256 / MD5 are external
primitives; every property proved here holds for an arbitrary digest).
-/

/-- A chat message as the host application stores it: speaker name,
user flag, text (`mes`), and system flag (source: message objects
consumed by `generateBlocks` in `src/index.js` and
`processHistoryForSummarization` in `src/script.js`). -/
structure Message where
  name : String
  is_user : Bool
  mes : String
  is_system : Bool
  deriving Repr, DecidableEq

/-- The projected copy `{ name, is_user, mes }` that both segmenters
store into a block's `details` (src/index.js line 236, src/script.js
lines 147-151). -/
structure BlockMsg where
  name : String
  is_user : Bool
  mes : String
  deriving Repr, DecidableEq

/-- Projection of a full message to the stored block detail record. -/
def toBlockMsg (m : Message) : BlockMsg :=
  { name := m.name, is_user := m.is_user, mes := m.mes }

/-- A produced block: content hash plus the ordered message details
(`blocks.push({ hash, details })` in both variants). -/
structure Block where
  hash : String
  details : List BlockMsg
  deriving Repr, DecidableEq

/-- JS `Array.prototype.join(sep)`: concatenate the strings with the
separator between consecutive elements (empty string for the empty
array).  Written by structural recursion so concrete executions reduce
inside the kernel. -/
def joinWith (sep : String) : List String → String
  | [] => ""
  | [x] => x
  | x :: xs => x ++ sep ++ joinWith sep xs

/-- JS `String.prototype.startsWith(pre)`, modelled on the character
lists underlying the strings so concrete executions reduce inside the
kernel. -/
def strStartsWith (s pre : String) : Bool :=
  pre.data.isPrefixOf s.data

/-- The pre-hash content encoding of `getBlockHash` (identical in both
variants): each message rendered as `U:` or `C:` followed by its text,
all joined by `|`
(`blockDetails.map(msg => (msg.is_user ? 'U' : 'C') + ':' + msg.mes).join('|')`). -/
def contentString (blockDetails : List BlockMsg) : String :=
  joinWith "|"
    (blockDetails.map (fun msg => (if msg.is_user then "U" else "C") ++ ":" ++ msg.mes))

/-- `getBlockHash` of both variants: digest of the content encoding.
`digest` abstracts the cryptographic primitive (SHA-256 hex in
`src/index.js`, MD5 hex in `src/script.js`); both are pure functions of
the encoded string. -/
def getBlockHash (digest : String → String) (blockDetails : List BlockMsg) : String :=
  digest (contentString blockDetails)

/-- Association-list lookup: first binding wins, which models overwrite
by `Map.set` / keyed upsert when paired with `insertAssoc`. -/
def lookupAssoc : List (String × String) → String → Option String
  | [], _ => none
  | (k, v) :: rest, h => if k = h then some v else lookupAssoc rest h

/-- Insertion with overwrite semantics under `lookupAssoc` (the new
binding shadows any older one), modelling `Map.set` and the durable
store's keyed upsert. -/
def insertAssoc (l : List (String × String)) (k v : String) : List (String × String) :=
  (k, v) :: l

/-- The two cache layers of the browser variant: `blockCache` (the
in-memory `Map`) and the IndexedDB object store keyed by hash.  The node
variant has the same two-layer shape with files as the durable layer. -/
structure CacheState where
  mem : List (String × String)
  db : List (String × String)
  deriving Repr, DecidableEq

/-- `getItemFromDB` (src/index.js lines 40-61): read the durable store;
when the store cannot be opened the catch block returns `null`, which the
`dbOk` flag models (a failed durable layer behaves as a miss).  A
get-request error instead rejects the returned promise (the catch covers
only `await openDB()`), aborting the whole summarization pass through
`checkAndSummarize`'s catch; such aborted executions return no result
and are outside the runs the orchestrator theorems quantify over. -/
def getItemFromDB (dbOk : Bool) (st : CacheState) (hash : String) : Option String :=
  if dbOk then lookupAssoc st.db hash else none

/-- How one durable write in the browser variant can end:
the put request succeeds; the store cannot be opened (`await openDB()`
throws, caught by `setItemInDB`'s catch); or the put request itself
errors (`request.onerror` fires). -/
inductive DbWriteOutcome where
  | ok : DbWriteOutcome
  | openError : DbWriteOutcome
  | requestError : DbWriteOutcome
  deriving Repr, DecidableEq

/-- `setItemInDB` (src/index.js lines 63-84): attempt the durable write.
On success the promise resolves `true`.  The try/catch guards only
`await openDB()`, so a failure to open the store is caught and resolves
`false`.  The `request.onerror` handler, however, rejects the promise
the function returned from inside the try (a returned promise's later
rejection is not caught by the surrounding block), so a put-request
error reaches the awaiting caller as an exception, modelled
`Except.error`.  The store changes only on success. -/
def setItemInDB (outcome : DbWriteOutcome) (st : CacheState) (hash summary : String) :
    Except Unit Bool × CacheState :=
  match outcome with
  | DbWriteOutcome.ok =>
      (Except.ok true, { st with db := insertAssoc st.db hash summary })
  | DbWriteOutcome.openError => (Except.ok false, st)
  | DbWriteOutcome.requestError => (Except.error (), st)

/-- `getSummaryFromCache` (src/index.js lines 154-166, src/script.js
lines 47-66): check the in-memory layer first; on a miss consult the
durable store; on a durable hit populate the in-memory layer before
returning. -/
def getSummaryFromCache (dbOk : Bool) (st : CacheState) (hash : String) :
    Option String × CacheState :=
  match lookupAssoc st.mem hash with
  | some s => (some s, st)
  | none =>
    match getItemFromDB dbOk st hash with
    | some s => (some s, { st with mem := insertAssoc st.mem hash s })
    | none => (none, st)

/-- `saveSummaryToCache` (src/index.js lines 168-171): write the
in-memory layer unconditionally, then `await` the durable write.  When
the durable helper resolves — with `true` or `false` — its boolean is
discarded and the function resolves with no value (`undefined`,
modelled `Except.ok ()`); when the durable helper rejects, the rejection
propagates out of `saveSummaryToCache`, which has no try/catch of its
own (`Except.error ()`).  The in-memory write is already in place either
way.  (The node variant, src/script.js lines 68-76, catches and logs its
durable write errors, so it only exhibits the resolving outcomes.) -/
def saveSummaryToCache (outcome : DbWriteOutcome) (st : CacheState)
    (hash summary : String) : Except Unit Unit × CacheState :=
  let st1 : CacheState := { st with mem := insertAssoc st.mem hash summary }
  match setItemInDB outcome st1 hash summary with
  | (Except.ok _, st2) => (Except.ok (), st2)
  | (Except.error e, st2) => (Except.error e, st2)

/-- The durable outcomes under which the durable layer resolves rather
than rejects, selected by the `dbOk` flag.  The orchestrator-level
theorems range over these executions: a put-request rejection aborts the
entire pass through `checkAndSummarize`'s catch and yields no returned
result to reason about. -/
def dbOutcomeOf (dbOk : Bool) : DbWriteOutcome :=
  if dbOk then DbWriteOutcome.ok else DbWriteOutcome.openError

/-- Outcome of the `fetch` to the summarization endpoint, as
`callSummarizationApi` distinguishes them: a network/fetch exception, a
non-2xx response with its status, or a 2xx response whose JSON body may
or may not carry a `summary` string. -/
inductive FetchOutcome where
  | netError : FetchOutcome
  | httpError : Nat → FetchOutcome
  | ok : Option String → FetchOutcome
  deriving Repr, DecidableEq

/-- `callSummarizationApi` of the browser variant (src/index.js lines
188-219): `null` when no endpoint is configured; the literal string
`"[Error: API response N]"` on a non-2xx status; the literal string
`"[Error: Network/Fetch failed]"` on a fetch exception; and on success
`result.summary || null`, so an absent or empty `summary` field yields
`null`. -/
def callSummarizationApi (apiUrl : String) (outcome : FetchOutcome) : Option String :=
  if apiUrl = "" then none
  else
    match outcome with
    | FetchOutcome.netError => some "[Error: Network/Fetch failed]"
    | FetchOutcome.httpError status =>
        some ("[Error: API response " ++ toString status ++ "]")
    | FetchOutcome.ok body =>
        match body with
        | some s => if s = "" then none else some s
        | none => none

/-- The placeholder summary substituted in src/index.js line 272 when the
client call yielded `null` for the block at 0-based index `i` (the
argument here is the 1-based `i + 1` the code interpolates). -/
def failPlaceholder (n : Nat) : String :=
  "[Summary generation failed for block " ++ toString n ++ "]"

/-- One iteration of the `summarizeAllBlocks` loop (src/index.js lines
262-279) for the block at 0-based index `i`: cache lookup; on a miss the
client is called, a non-null result that does not start with `"[Error:"`
is saved to the cache, a null result becomes the failure placeholder,
and any failure marks the error flag.  Returns (summary pushed, whether
this block errored, cache state afterwards). -/
def processBlockState (dbOk : Bool) (api : List BlockMsg → Option String)
    (st : CacheState) (i : Nat) (b : Block) : String × Bool × CacheState :=
  match getSummaryFromCache dbOk st b.hash with
  | (some s, st') => (s, false, st')
  | (none, st') =>
    match api b.details with
    | some s =>
        if strStartsWith s "[Error:" then (s, true, st')
        else (s, false, (saveSummaryToCache (dbOutcomeOf dbOk) st' b.hash s).2)
    | none => (failPlaceholder (i + 1), true, st')

/-- Result of a summarize-all run: the ordered summaries, the aggregate
error flag (`hasError` in src/index.js), and the final cache state. -/
structure SummariesResult where
  summaries : List String
  hasError : Bool
  state : CacheState
  deriving Repr, DecidableEq

/-- The `summarizeAllBlocks` loop with the running 0-based index and
cache state made explicit. -/
def summarizeGo (dbOk : Bool) (api : List BlockMsg → Option String) :
    Nat → CacheState → List Block → SummariesResult
  | _, st, [] => { summaries := [], hasError := false, state := st }
  | i, st, b :: rest =>
    let step := processBlockState dbOk api st i b
    let r := summarizeGo dbOk api (i + 1) step.2.2 rest
    { summaries := step.1 :: r.summaries,
      hasError := step.2.1 || r.hasError,
      state := r.state }

/-- `summarizeAllBlocks` (src/index.js lines 258-281): process the
blocks strictly in order, starting from index 0. -/
def summarizeAllBlocks (dbOk : Bool) (api : List BlockMsg → Option String)
    (st : CacheState) (blocks : List Block) : SummariesResult :=
  summarizeGo dbOk api 0 st blocks

/-- The segmentation loop state shared by both variants: emitted blocks,
the current (open) block, and its accumulated character length. -/
structure SegState where
  blocks : List Block
  currentBlock : List BlockMsg
  currentBlockLength : Nat
  deriving Repr, DecidableEq

/-- One iteration of `generateBlocks` (src/index.js lines 231-247):
skip system messages and empty texts; close the current block when it is
non-empty and adding the message would exceed `blockSize`, starting the
new block with the pending message; otherwise append the message. -/
def genBlocksStep (digest : String → String) (blockSize : Nat)
    (st : SegState) (message : Message) : SegState :=
  if message.is_system then st
  else if message.mes.length = 0 then st
  else
    let blockMsg := toBlockMsg message
    if 0 < st.currentBlock.length ∧
        blockSize < st.currentBlockLength + message.mes.length then
      { blocks := st.blocks ++ [⟨getBlockHash digest st.currentBlock, st.currentBlock⟩],
        currentBlock := [blockMsg],
        currentBlockLength := message.mes.length }
    else
      { st with
        currentBlock := st.currentBlock ++ [blockMsg],
        currentBlockLength := st.currentBlockLength + message.mes.length }

/-- `generateBlocks` (src/index.js lines 222-256, browser variant): fold
the step over the history and emit the final non-empty block. -/
def generateBlocks (digest : String → String) (blockSize : Nat)
    (chatHistory : List Message) : List Block :=
  let st := chatHistory.foldl (genBlocksStep digest blockSize) ⟨[], [], 0⟩
  if 0 < st.currentBlock.length then
    st.blocks ++ [⟨getBlockHash digest st.currentBlock, st.currentBlock⟩]
  else st.blocks

/-- One iteration of the segmentation loop of
`processHistoryForSummarization` (src/script.js lines 129-154, node
variant): close the current block when it is non-empty and either the
size budget would be exceeded or the block already holds more than 100
messages; after a close the new block starts empty; the message is then
appended only when its text is non-empty (system messages are not
filtered here). -/
def processStep (digest : String → String) (blockSize : Nat)
    (st : SegState) (message : Message) : SegState :=
  let messageLength := message.mes.length
  let st1 :=
    if 0 < st.currentBlock.length ∧
        (blockSize < st.currentBlockLength + messageLength ∨
          100 < st.currentBlock.length) then
      ({ blocks := st.blocks ++ [⟨getBlockHash digest st.currentBlock, st.currentBlock⟩],
         currentBlock := [],
         currentBlockLength := 0 } : SegState)
    else st
  if 0 < messageLength then
    { st1 with
      currentBlock := st1.currentBlock ++ [toBlockMsg message],
      currentBlockLength := st1.currentBlockLength + messageLength }
  else st1

/-- The segmentation half of `processHistoryForSummarization`
(src/script.js lines 122-162): fold the step over the history and emit
the final non-empty block. -/
def processHistoryBlocks (digest : String → String) (blockSize : Nat)
    (chatHistory : List Message) : List Block :=
  let st := chatHistory.foldl (processStep digest blockSize) ⟨[], [], 0⟩
  if 0 < st.currentBlock.length then
    st.blocks ++ [⟨getBlockHash digest st.currentBlock, st.currentBlock⟩]
  else st.blocks

/-- Summed text length of a block's details (the quantity
`currentBlockLength` tracks). -/
def detailsLength (details : List BlockMsg) : Nat :=
  (details.map (fun m => m.mes.length)).sum

/-- Character cost the truncation of `onPromptInput` charges one message
(src/script.js line 253):
`(message.name ? message.name.length + 2 : 0) + (message.mes ? message.mes.length : 0)`. -/
def msgChars (m : Message) : Nat :=
  (if m.name = "" then 0 else m.name.length + 2) + m.mes.length

/-- `remainingCharsForHistory` of `onPromptInput` (src/script.js lines
243-244): `Math.max(0, historySize * 4 - templateChars)`; truncated
natural subtraction is exactly that maximum. -/
def remainingCharsForHistory (historySize : Nat) (templateResult : String) : Nat :=
  historySize * 4 - templateResult.length

/-- The backwards walk of src/script.js lines 251-262 over the reversed
history (most recent first): keep a message while the running total plus
its cost stays within the budget, and stop at the first message that
would overflow. -/
def truncTake (remaining : Nat) : Nat → List Message → List Message
  | _, [] => []
  | currentChars, m :: rest =>
    if currentChars + msgChars m ≤ remaining then
      m :: truncTake remaining (currentChars + msgChars m) rest
    else []

/-- The truncation of `onPromptInput` (src/script.js lines 248-262):
walk the history from most recent to oldest, keep while within budget,
and return the kept messages in original chronological order (the code
builds this with `unshift`). -/
def truncateHistory (remaining : Nat) (chatHistory : List Message) : List Message :=
  (truncTake remaining 0 chatHistory.reverse).reverse

/-- First colliding block of C9: the single user message `"a|U:b"`. -/
def c9_blockA : List BlockMsg := [⟨"Alice", true, "a|U:b"⟩]

/-- Second colliding block of C9: the two user messages `"a"` and `"b"`. -/
def c9_blockB : List BlockMsg := [⟨"Alice", true, "a"⟩, ⟨"Bob", true, "b"⟩]

/-- The filter the browser segmenter applies (src/index.js lines
232-234): drop system messages and empty texts. -/
def browserKeep (m : Message) : Bool :=
  !m.is_system && !(m.mes.length == 0)

/-- The filter the node segmenter applies (src/script.js line 145): drop
only empty texts (system messages are the caller's concern there). -/
def nodeKeep (m : Message) : Bool :=
  !(m.mes.length == 0)

/-- A block the spec calls well-formed: non-empty, and within the size
budget unless it is a single over-budget message sitting alone. -/
def GoodBlockDetails (blockSize : Nat) (d : List BlockMsg) : Prop :=
  d ≠ [] ∧
    (detailsLength d ≤ blockSize ∨ ∃ m, d = [m] ∧ blockSize < m.mes.length)

/-- Loop invariant of both segmenters: every emitted block is
well-formed, the open block is empty or within budget or an over-budget
singleton, and `currentBlockLength` tracks the open block's summed text
length. -/
def SegInv (blockSize : Nat) (st : SegState) : Prop :=
  (∀ b ∈ st.blocks, GoodBlockDetails blockSize b.details) ∧
  (st.currentBlock = [] ∨ detailsLength st.currentBlock ≤ blockSize ∨
      ∃ m, st.currentBlock = [m] ∧ blockSize < m.mes.length) ∧
  st.currentBlockLength = detailsLength st.currentBlock

/-- All messages a segmentation state holds, in order: the emitted
blocks' details followed by the open block. -/
def segFlatten (st : SegState) : List BlockMsg :=
  (st.blocks.map Block.details).flatten ++ st.currentBlock

/-- The concrete history of the C2 witness: the spec's worked example in
miniature — two short messages and one over-budget message. -/
def c2Chat : List Message :=
  [⟨"U", true, "hi", false⟩, ⟨"A", false, "hello", false⟩,
    ⟨"U", true, "xxxxxxx", false⟩]

/-- One message of length 1 for the C5 counterexample. -/
def c5Message : Message := ⟨"A", false, "x", false⟩

/-- 102 such messages: 102 characters in total, far within block size
1000, yet more than the node variant's 100-messages-per-block cap. -/
def c5Chat : List Message := List.replicate 102 c5Message

/-- A message with an empty speaker name for the C6 counterexample. -/
def c6Message : Message := ⟨"", false, "a", false⟩

/-- The single uncached block of the C1 counterexample. -/
def c1Block : Block := ⟨"h1", [⟨"Alice", true, "hi"⟩]⟩

/-- The client as the orchestrator sees it: `callSummarizationApi`
driven by a per-block fetch outcome. -/
def clientApi (apiUrl : String) (outcome : List BlockMsg → FetchOutcome) :
    List BlockMsg → Option String :=
  fun d => callSummarizationApi apiUrl (outcome d)

/-- What one call of `checkAndSummarize`'s synchronous prefix does:
return without doing anything (the guard fired), re-apply the last known
summary (threshold not reached), or start a summarization pass. -/
inductive TriggerResult where
  | noop : TriggerResult
  | reapply : TriggerResult
  | started : TriggerResult
  deriving Repr, DecidableEq

/-- The module-level mutable state of src/index.js that
`checkAndSummarize` reads and writes (`settings.enabled`, `inApiCall`,
`lastMessageCount`), plus a ghost counter `activePasses` of the passes
currently between the `inApiCall = true` assignment and the `finally`
block, used to state mutual exclusion. -/
structure OrchState where
  enabled : Bool
  inApiCall : Bool
  lastMessageCount : Nat
  activePasses : Nat
  deriving Repr, DecidableEq

/-- The synchronous prefix of `checkAndSummarize` (src/index.js lines
295-307): the guard `if (!settings.enabled || inApiCall) return;`, the
trigger-threshold test over the non-system non-empty messages, and — on
the started path — the `inApiCall = true` assignment.  No `await`
separates the guard from the assignment, so under JS run-to-completion
this prefix is one atomic transition; the subtraction is over the
integers as in JS. -/
def checkAndSummarizeEntry (triggerThreshold : Nat) (st : OrchState)
    (chat : List Message) : TriggerResult × OrchState :=
  if !st.enabled || st.inApiCall then (TriggerResult.noop, st)
  else
    let currentMessageCount := (chat.filter browserKeep).length
    if (triggerThreshold : Int)
        ≤ (currentMessageCount : Int) - (st.lastMessageCount : Int) then
      (TriggerResult.started,
        { st with inApiCall := true, activePasses := st.activePasses + 1 })
    else (TriggerResult.reapply, st)

/-- The `finally` block of `checkAndSummarize` (src/index.js lines
333-336), reached both when the pass completes and when it throws:
`inApiCall = false`, ending the pass. -/
def passFinish (st : OrchState) : OrchState :=
  { st with inApiCall := false, activePasses := st.activePasses - 1 }

/-- The interleaving semantics of the module: a trigger of the entry
point may fire at any time with any chat; a pass in flight may update
`lastMessageCount` inside its try block and eventually reaches the
finally block, completing (`success = true`) or failing
(`success = false`) — both run `passFinish`; the settings UI may toggle
`enabled` at any time.  The state space holds no queue: a dropped
trigger leaves no pending work behind. -/
inductive OrchStep (triggerThreshold : Nat) : OrchState → OrchState → Prop
  | trigger (st : OrchState) (chat : List Message) :
      OrchStep triggerThreshold st (checkAndSummarizeEntry triggerThreshold st chat).2
  | bodyUpdate (st : OrchState) (n : Nat) (h : 0 < st.activePasses) :
      OrchStep triggerThreshold st { st with lastMessageCount := n }
  | finish (st : OrchState) (success : Bool) (h : 0 < st.activePasses) :
      OrchStep triggerThreshold st (passFinish st)
  | setEnabled (st : OrchState) (b : Bool) :
      OrchStep triggerThreshold st { st with enabled := b }

/-- Module load state: flag clear, no pass in flight. -/
def initOrchState : OrchState :=
  { enabled := true, inApiCall := false, lastMessageCount := 0, activePasses := 0 }

/-- States the module can reach from load under the interleaving
semantics. -/
def OrchReachable (triggerThreshold : Nat) (st : OrchState) : Prop :=
  Relation.ReflTransGen (OrchStep triggerThreshold) initOrchState st

/-- The content encoding factors through the `(is_user, mes)` projection
of the details: speaker names do not enter it. -/
lemma contentString_eq_of_proj (d1 d2 : List BlockMsg)
    (h : d1.map (fun m => (m.is_user, m.mes)) = d2.map (fun m => (m.is_user, m.mes))) :
    contentString d1 = contentString d2 := by
  have key : ∀ d : List BlockMsg,
      d.map (fun msg => (if msg.is_user then "U" else "C") ++ ":" ++ msg.mes)
        = (d.map (fun m => (m.is_user, m.mes))).map
            (fun p => (if p.1 then "U" else "C") ++ ":" ++ p.2) := by
    intro d
    rw [List.map_map]
    rfl
  unfold contentString
  rw [key, key, h]

/-- C3: the block hash is a deterministic pure function of the ordered
`(isUser, text)` pairs of the block's messages — two blocks agreeing
pairwise on `is_user` and `mes` receive the same hash for every digest,
speaker names notwithstanding.  (Repeated calls returning the same hash
is purity of `getBlockHash`, inherent in the embedding: it is a function
with no state.) -/
theorem c3_hash_determined_by_role_and_text (digest : String → String)
    (d1 d2 : List BlockMsg)
    (h : d1.map (fun m => (m.is_user, m.mes)) = d2.map (fun m => (m.is_user, m.mes))) :
    getBlockHash digest d1 = getBlockHash digest d2 := by
  unfold getBlockHash
  rw [contentString_eq_of_proj d1 d2 h]

/-- Witness for C3: two concrete one-message blocks that differ only in
the speaker name hash identically. -/
theorem c3_hash_determined_by_role_and_text_witness :
    getBlockHash id [⟨"Alice", true, "hi"⟩] = getBlockHash id [⟨"Bob", true, "hi"⟩] :=
  c3_hash_determined_by_role_and_text id _ _ (by decide)

/-- C9: the pre-hash encoding is not injective — the two distinct
blocks above (they even differ as `(is_user, mes)` sequences) encode to
the identical string `"U:a|U:b"`, so every digest, hence `getBlockHash`
of either variant, assigns them the same hash. -/
theorem c9_encoding_collision :
    c9_blockA ≠ c9_blockB ∧
    c9_blockA.map (fun m => (m.is_user, m.mes))
      ≠ c9_blockB.map (fun m => (m.is_user, m.mes)) ∧
    contentString c9_blockA = contentString c9_blockB ∧
    ∀ digest : String → String,
      getBlockHash digest c9_blockA = getBlockHash digest c9_blockB := by
  have hc : contentString c9_blockA = contentString c9_blockB := by decide
  exact ⟨by decide, by decide, hc, fun digest => congrArg digest hc⟩

/-- C4: `put(h, s)` followed by `get(h)` returns `s` (for every non-empty
`s`, every prior cache state and every durable write outcome — success,
caught open-failure or request-error rejection — because `put` writes
the in-memory layer before touching the durable one); `get` checks the in-memory
layer first and returns without touching anything else on a hit; on an
in-memory miss it consults the durable store, and on a durable hit it
populates the in-memory layer with the retrieved summary before
returning it, so a durable-only entry is an in-memory entry after one
`get`. -/
theorem c4_cache_roundtrip_and_layering (dbOk : Bool) (outcome : DbWriteOutcome)
    (st : CacheState) (h s : String) (hs : s ≠ "") :
    (getSummaryFromCache dbOk (saveSummaryToCache outcome st h s).2 h).1 = some s ∧
    (∀ v, lookupAssoc st.mem h = some v →
        getSummaryFromCache dbOk st h = (some v, st)) ∧
    (∀ v, lookupAssoc st.mem h = none → getItemFromDB dbOk st h = some v →
        getSummaryFromCache dbOk st h
            = (some v, { st with mem := insertAssoc st.mem h v }) ∧
        lookupAssoc (getSummaryFromCache dbOk st h).2.mem h = some v) := by
  refine ⟨?_, ?_, ?_⟩
  · cases outcome <;>
      simp [saveSummaryToCache, setItemInDB, getSummaryFromCache, insertAssoc, lookupAssoc]
  · intro v hv
    unfold getSummaryFromCache
    rw [hv]
  · intro v hmem hdb
    refine ⟨?_, ?_⟩ <;>
      simp [getSummaryFromCache, hmem, hdb, insertAssoc, lookupAssoc]

/-- Witness for C4 at a concrete non-empty summary: a fresh put of
`("h", "s")` on the empty cache is read back by `get`. -/
theorem c4_cache_roundtrip_and_layering_witness :
    (getSummaryFromCache true
        (saveSummaryToCache DbWriteOutcome.ok ⟨[], []⟩ "h" "s").2 "h").1
      = some "s" :=
  (c4_cache_roundtrip_and_layering true DbWriteOutcome.ok ⟨[], []⟩ "h" "s" (by decide)).1

/-- C7 counterexample: `put("h", "s")` on the empty cache when the
durable store cannot be opened.  `setItemInDB`'s catch resolves `false`
to signal the failure, the in-memory entry is present and the durable
store untouched — and yet the value `put` resolves with is exactly the
value it resolves with when the durable write succeeds:
`saveSummaryToCache` discards the boolean and resolves `undefined`
either way, so this durable-layer write failure is not reported to the
caller of put as a failure result — refuting the claim. -/
theorem c7_counterexample :
    (setItemInDB DbWriteOutcome.openError ⟨[("h", "s")], []⟩ "h" "s").1
      = Except.ok false ∧
    lookupAssoc
        (saveSummaryToCache DbWriteOutcome.openError ⟨[], []⟩ "h" "s").2.mem "h"
      = some "s" ∧
    lookupAssoc
        (saveSummaryToCache DbWriteOutcome.openError ⟨[], []⟩ "h" "s").2.db "h"
      = none ∧
    (saveSummaryToCache DbWriteOutcome.openError ⟨[], []⟩ "h" "s").1
      = (saveSummaryToCache DbWriteOutcome.ok ⟨[], []⟩ "h" "s").1 := by
  refine ⟨rfl, by decide, by decide, rfl⟩

/-- C7 (amended): `put` writes the in-memory layer immediately and
unconditionally — under every durable outcome the entry is in the
in-memory layer afterwards, with no rollback — and then attempts the
durable write.  How a durable failure surfaces depends on which of the
two failure paths fires: when the store cannot be opened,
`setItemInDB`'s catch resolves `false`, `saveSummaryToCache` discards
that boolean and resolves with the same `undefined` as on success, so
this failure is NOT reported to the caller of put; when the put request
itself errors, `setItemInDB`'s promise rejects past its catch and the
rejection propagates out of `saveSummaryToCache` to put's caller as an
exception (never as a success|failure result), the durable store again
unchanged and the in-memory entry still in place. -/
theorem c7_put_failure_swallowed (outcome : DbWriteOutcome) (st : CacheState)
    (h s : String) :
    (saveSummaryToCache outcome st h s).2.mem = insertAssoc st.mem h s ∧
    lookupAssoc (saveSummaryToCache outcome st h s).2.mem h = some s ∧
    (setItemInDB DbWriteOutcome.openError
        { st with mem := insertAssoc st.mem h s } h s).1 = Except.ok false ∧
    (saveSummaryToCache DbWriteOutcome.openError st h s).2.db = st.db ∧
    (saveSummaryToCache DbWriteOutcome.openError st h s).1
      = (saveSummaryToCache DbWriteOutcome.ok st h s).1 ∧
    (saveSummaryToCache DbWriteOutcome.requestError st h s).1
      = Except.error () ∧
    (saveSummaryToCache DbWriteOutcome.requestError st h s).2.db = st.db := by
  refine ⟨?_, ?_, rfl, ?_, rfl, rfl, ?_⟩
  · cases outcome <;> simp [saveSummaryToCache, setItemInDB]
  · cases outcome <;> simp [saveSummaryToCache, setItemInDB, insertAssoc, lookupAssoc]
  · simp [saveSummaryToCache, setItemInDB]
  · simp [saveSummaryToCache, setItemInDB]


lemma detailsLength_append (d1 d2 : List BlockMsg) :
    detailsLength (d1 ++ d2) = detailsLength d1 + detailsLength d2 := by
  simp [detailsLength]

lemma goodCurrent_of_close (blockSize : Nat) (st : SegState)
    (hcur : st.currentBlock = [] ∨ detailsLength st.currentBlock ≤ blockSize ∨
        ∃ m, st.currentBlock = [m] ∧ blockSize < m.mes.length)
    (hne : 0 < st.currentBlock.length) :
    GoodBlockDetails blockSize st.currentBlock := by
  refine ⟨?_, ?_⟩
  · intro h0
    rw [h0] at hne
    simp at hne
  · rcases hcur with hcur | hcur | hcur
    · rw [hcur] at hne; simp at hne
    · exact Or.inl hcur
    · exact Or.inr hcur

lemma goodSingleton (blockSize : Nat) (m : Message) :
    detailsLength [toBlockMsg m] ≤ blockSize ∨
      ∃ mm, [toBlockMsg m] = [mm] ∧ blockSize < mm.mes.length := by
  by_cases hle : m.mes.length ≤ blockSize
  · exact Or.inl (by simpa [detailsLength, toBlockMsg] using hle)
  · refine Or.inr ⟨toBlockMsg m, rfl, ?_⟩
    simp only [toBlockMsg]
    omega

lemma genBlocksStep_inv (digest : String → String) (blockSize : Nat)
    (st : SegState) (m : Message) (h : SegInv blockSize st) :
    SegInv blockSize (genBlocksStep digest blockSize st m) := by
  obtain ⟨hblocks, hcur, hlen⟩ := h
  by_cases hsys : m.is_system
  · simpa [genBlocksStep, hsys] using ⟨hblocks, hcur, hlen⟩
  · by_cases hmes : m.mes.length = 0
    · simpa [genBlocksStep, hsys, hmes] using ⟨hblocks, hcur, hlen⟩
    · by_cases hclose : 0 < st.currentBlock.length ∧
          blockSize < st.currentBlockLength + m.mes.length
      · simp only [genBlocksStep, if_neg hsys, if_neg hmes, if_pos hclose]
        refine ⟨?_, ?_, rfl⟩
        · intro b hb
          rcases List.mem_append.mp hb with hb | hb
          · exact hblocks b hb
          · rcases List.mem_singleton.mp hb with rfl
            exact goodCurrent_of_close blockSize st hcur hclose.1
        · exact Or.inr (goodSingleton blockSize m)
      · simp only [genBlocksStep, if_neg hsys, if_neg hmes, if_neg hclose]
        refine ⟨hblocks, ?_, ?_⟩
        · rw [not_and_or] at hclose
          rcases hclose with hnil | hfits
          · have h0 : st.currentBlock = [] := by
              rcases hh : st.currentBlock with _ | ⟨a, t⟩
              · rfl
              · rw [hh] at hnil; simp at hnil
            simp only [h0, List.nil_append]
            exact Or.inr (goodSingleton blockSize m)
          · refine Or.inr (Or.inl ?_)
            rw [detailsLength_append, ← hlen]
            have : detailsLength [toBlockMsg m] = m.mes.length := by
              simp [detailsLength, toBlockMsg]
            omega
        · rw [detailsLength_append, hlen]
          simp [detailsLength, toBlockMsg]

lemma genBlocksStep_flatten (digest : String → String) (blockSize : Nat)
    (st : SegState) (m : Message) :
    segFlatten (genBlocksStep digest blockSize st m)
      = segFlatten st ++ (if browserKeep m then [toBlockMsg m] else []) := by
  by_cases hsys : m.is_system
  · simp [genBlocksStep, hsys, browserKeep, segFlatten]
  · by_cases hmes : m.mes.length = 0
    · simp [genBlocksStep, hsys, hmes, browserKeep, segFlatten]
    · by_cases hclose : 0 < st.currentBlock.length ∧
          blockSize < st.currentBlockLength + m.mes.length
      · simp only [genBlocksStep, if_neg hsys, if_neg hmes, if_pos hclose]
        simp [segFlatten, browserKeep, hsys, hmes]
      · simp only [genBlocksStep, if_neg hsys, if_neg hmes, if_neg hclose]
        simp [segFlatten, browserKeep, hsys, hmes]

lemma processStep_inv (digest : String → String) (blockSize : Nat)
    (st : SegState) (m : Message) (h : SegInv blockSize st) :
    SegInv blockSize (processStep digest blockSize st m) := by
  obtain ⟨hblocks, hcur, hlen⟩ := h
  by_cases hclose : 0 < st.currentBlock.length ∧
      (blockSize < st.currentBlockLength + m.mes.length ∨ 100 < st.currentBlock.length)
  · simp only [processStep, if_pos hclose]
    by_cases hmes : 0 < m.mes.length
    · simp only [if_pos hmes]
      refine ⟨?_, ?_, ?_⟩
      · intro b hb
        rcases List.mem_append.mp hb with hb | hb
        · exact hblocks b hb
        · rcases List.mem_singleton.mp hb with rfl
          exact goodCurrent_of_close blockSize st hcur hclose.1
      · simp only [List.nil_append]
        exact Or.inr (goodSingleton blockSize m)
      · simp [detailsLength, toBlockMsg]
    · simp only [if_neg hmes]
      refine ⟨?_, Or.inl rfl, by simp [detailsLength]⟩
      intro b hb
      rcases List.mem_append.mp hb with hb | hb
      · exact hblocks b hb
      · rcases List.mem_singleton.mp hb with rfl
        exact goodCurrent_of_close blockSize st hcur hclose.1
  · simp only [processStep, if_neg hclose]
    by_cases hmes : 0 < m.mes.length
    · simp only [if_pos hmes]
      refine ⟨hblocks, ?_, ?_⟩
      · rw [not_and_or] at hclose
        rcases hclose with hnil | hfits
        · have h0 : st.currentBlock = [] := by
            rcases hh : st.currentBlock with _ | ⟨a, t⟩
            · rfl
            · rw [hh] at hnil; simp at hnil
          simp only [h0, List.nil_append]
          exact Or.inr (goodSingleton blockSize m)
        · rw [not_or] at hfits
          refine Or.inr (Or.inl ?_)
          rw [detailsLength_append, ← hlen]
          have : detailsLength [toBlockMsg m] = m.mes.length := by
            simp [detailsLength, toBlockMsg]
          have hf := hfits.1
          omega
      · rw [detailsLength_append, hlen]
        simp [detailsLength, toBlockMsg]
    · simpa only [if_neg hmes] using ⟨hblocks, hcur, hlen⟩

lemma processStep_flatten (digest : String → String) (blockSize : Nat)
    (st : SegState) (m : Message) :
    segFlatten (processStep digest blockSize st m)
      = segFlatten st ++ (if nodeKeep m then [toBlockMsg m] else []) := by
  by_cases hclose : 0 < st.currentBlock.length ∧
      (blockSize < st.currentBlockLength + m.mes.length ∨ 100 < st.currentBlock.length)
  · simp only [processStep, if_pos hclose]
    by_cases hmes : 0 < m.mes.length
    · have : ¬(m.mes.length == 0) = true := by simp; omega
      simp [if_pos hmes, segFlatten, nodeKeep, this]
    · have h0 : m.mes.length = 0 := by omega
      simp [if_neg hmes, segFlatten, nodeKeep, h0]
  · simp only [processStep, if_neg hclose]
    by_cases hmes : 0 < m.mes.length
    · have : ¬(m.mes.length == 0) = true := by simp; omega
      simp [if_pos hmes, segFlatten, nodeKeep, this]
    · have h0 : m.mes.length = 0 := by omega
      simp [if_neg hmes, segFlatten, nodeKeep, h0]

lemma foldl_genBlocksStep_inv (digest : String → String) (blockSize : Nat) :
    ∀ (chat : List Message) (st : SegState), SegInv blockSize st →
      SegInv blockSize (chat.foldl (genBlocksStep digest blockSize) st)
  | [], _, h => h
  | m :: rest, st, h =>
    foldl_genBlocksStep_inv digest blockSize rest _
      (genBlocksStep_inv digest blockSize st m h)

lemma foldl_genBlocksStep_flatten (digest : String → String) (blockSize : Nat) :
    ∀ (chat : List Message) (st : SegState),
      segFlatten (chat.foldl (genBlocksStep digest blockSize) st)
        = segFlatten st ++ (chat.filter browserKeep).map toBlockMsg := by
  intro chat
  induction chat with
  | nil => intro st; simp
  | cons m rest ih =>
    intro st
    rw [List.foldl_cons, ih, genBlocksStep_flatten]
    by_cases hk : browserKeep m
    · simp [List.filter_cons, hk]
    · simp [List.filter_cons, hk]

lemma foldl_processStep_inv (digest : String → String) (blockSize : Nat) :
    ∀ (chat : List Message) (st : SegState), SegInv blockSize st →
      SegInv blockSize (chat.foldl (processStep digest blockSize) st)
  | [], _, h => h
  | m :: rest, st, h =>
    foldl_processStep_inv digest blockSize rest _
      (processStep_inv digest blockSize st m h)

lemma foldl_processStep_flatten (digest : String → String) (blockSize : Nat) :
    ∀ (chat : List Message) (st : SegState),
      segFlatten (chat.foldl (processStep digest blockSize) st)
        = segFlatten st ++ (chat.filter nodeKeep).map toBlockMsg := by
  intro chat
  induction chat with
  | nil => intro st; simp
  | cons m rest ih =>
    intro st
    rw [List.foldl_cons, ih, processStep_flatten]
    by_cases hk : nodeKeep m
    · simp [List.filter_cons, hk]
    · simp [List.filter_cons, hk]

lemma segInv_init (blockSize : Nat) : SegInv blockSize ⟨[], [], 0⟩ := by
  refine ⟨by simp, Or.inl rfl, by simp [detailsLength]⟩

lemma generateBlocks_good (digest : String → String) (blockSize : Nat)
    (chat : List Message) (b : Block) (hb : b ∈ generateBlocks digest blockSize chat) :
    GoodBlockDetails blockSize b.details := by
  have hinv := foldl_genBlocksStep_inv digest blockSize chat ⟨[], [], 0⟩
    (segInv_init blockSize)
  obtain ⟨hblocks, hcur, _⟩ := hinv
  simp only [generateBlocks] at hb
  split at hb
  · rcases List.mem_append.mp hb with hb | hb
    · exact hblocks b hb
    · rcases List.mem_singleton.mp hb with rfl
      exact goodCurrent_of_close blockSize _ hcur (by assumption)
  · exact hblocks b hb

lemma generateBlocks_flatten (digest : String → String) (blockSize : Nat)
    (chat : List Message) :
    ((generateBlocks digest blockSize chat).map Block.details).flatten
      = (chat.filter browserKeep).map toBlockMsg := by
  have hflat := foldl_genBlocksStep_flatten digest blockSize chat ⟨[], [], 0⟩
  simp only [generateBlocks]
  split
  · rename_i hne
    simpa [segFlatten] using hflat
  · rename_i hnil
    have h0 : (chat.foldl (genBlocksStep digest blockSize) ⟨[], [], 0⟩).currentBlock = [] := by
      rcases hh : (chat.foldl (genBlocksStep digest blockSize) ⟨[], [], 0⟩).currentBlock with
        _ | ⟨a, t⟩
      · rfl
      · rw [hh] at hnil; simp at hnil
    rw [segFlatten, h0] at hflat
    simpa [segFlatten] using hflat

lemma processHistoryBlocks_good (digest : String → String) (blockSize : Nat)
    (chat : List Message) (b : Block)
    (hb : b ∈ processHistoryBlocks digest blockSize chat) :
    GoodBlockDetails blockSize b.details := by
  have hinv := foldl_processStep_inv digest blockSize chat ⟨[], [], 0⟩
    (segInv_init blockSize)
  obtain ⟨hblocks, hcur, _⟩ := hinv
  simp only [processHistoryBlocks] at hb
  split at hb
  · rcases List.mem_append.mp hb with hb | hb
    · exact hblocks b hb
    · rcases List.mem_singleton.mp hb with rfl
      exact goodCurrent_of_close blockSize _ hcur (by assumption)
  · exact hblocks b hb

lemma processHistoryBlocks_flatten (digest : String → String) (blockSize : Nat)
    (chat : List Message) :
    ((processHistoryBlocks digest blockSize chat).map Block.details).flatten
      = (chat.filter nodeKeep).map toBlockMsg := by
  have hflat := foldl_processStep_flatten digest blockSize chat ⟨[], [], 0⟩
  simp only [processHistoryBlocks]
  split
  · rename_i hne
    simpa [segFlatten] using hflat
  · rename_i hnil
    have h0 : (chat.foldl (processStep digest blockSize) ⟨[], [], 0⟩).currentBlock = [] := by
      rcases hh : (chat.foldl (processStep digest blockSize) ⟨[], [], 0⟩).currentBlock with
        _ | ⟨a, t⟩
      · rfl
      · rw [hh] at hnil; simp at hnil
    rw [segFlatten, h0] at hflat
    simpa [segFlatten] using hflat

/-- C2: for every message list and block size > 0, in both variants
every produced block is non-empty and has summed message text lengths
within `blockSize` unless it is a single over-budget message sitting
alone; and concatenating all blocks' messages in output order reproduces
exactly the filtered input in original order — with empty-text messages
and system messages removed in the browser variant, and empty-text
messages removed in the node variant. -/
theorem c2_segmentation_budget_and_partition (digest : String → String)
    (blockSize : Nat) (chat : List Message) (hbs : 0 < blockSize) :
    (∀ b ∈ generateBlocks digest blockSize chat,
        b.details ≠ [] ∧
          (detailsLength b.details ≤ blockSize ∨
            ∃ m, b.details = [m] ∧ blockSize < m.mes.length)) ∧
    ((generateBlocks digest blockSize chat).map Block.details).flatten
        = (chat.filter browserKeep).map toBlockMsg ∧
    (∀ b ∈ processHistoryBlocks digest blockSize chat,
        b.details ≠ [] ∧
          (detailsLength b.details ≤ blockSize ∨
            ∃ m, b.details = [m] ∧ blockSize < m.mes.length)) ∧
    ((processHistoryBlocks digest blockSize chat).map Block.details).flatten
        = (chat.filter nodeKeep).map toBlockMsg := by
  refine ⟨?_, generateBlocks_flatten digest blockSize chat, ?_,
    processHistoryBlocks_flatten digest blockSize chat⟩
  · intro b hb
    exact generateBlocks_good digest blockSize chat b hb
  · intro b hb
    exact processHistoryBlocks_good digest blockSize chat b hb

/-- Witness for C2 at block size 5: the browser segmentation of the
concrete history partitions the filtered input. -/
theorem c2_segmentation_budget_and_partition_witness :
    ((generateBlocks id 5 c2Chat).map Block.details).flatten
      = (c2Chat.filter browserKeep).map toBlockMsg :=
  (c2_segmentation_budget_and_partition id 5 c2Chat (by decide)).2.1

lemma append_singleton_ne {α : Type _} (l : List α) (x : α) : l ++ [x] ≠ l := by
  intro h
  have := congrArg List.length h
  simp at this

set_option maxRecDepth 4000 in
/-- C5 counterexample: on 102 one-character messages with block size
1000 the node variant (src/script.js) closes a block although the size
condition `currentLength + newMessageLength > blockSizeChars` never
fires — its extra `currentBlock.length > 100` cap splits the history
into 2 blocks, while the claimed size-only closing rule (exactly what
the browser variant implements) yields a single block; the total text
length is 102 ≤ 1000. -/
theorem c5_counterexample :
    (processHistoryBlocks (fun _ => "") 1000 c5Chat).length = 2 ∧
    (generateBlocks (fun _ => "") 1000 c5Chat).length = 1 ∧
    detailsLength (c5Chat.map toBlockMsg) = 102 ∧ 102 ≤ 1000 := by decide

/-- C5 (amended): in the browser variant (`generateBlocks`) a block is
emitted at a step exactly when the message survives the system/empty
filters, the current block is non-empty and
`currentLength + newMessageLength > blockSizeChars`, and the new block
then starts with the pending message.  In the node variant
(`processHistoryForSummarization`) the block is emitted exactly when the
current block is non-empty and EITHER the size condition fires OR the
current block already holds more than 100 messages; after the close the
new block receives the pending message only when its text is non-empty
(and is otherwise left empty). -/
theorem c5_closing_rule (digest : String → String) (blockSize : Nat)
    (st : SegState) (m : Message) :
    ((genBlocksStep digest blockSize st m).blocks ≠ st.blocks ↔
        m.is_system = false ∧ m.mes.length ≠ 0 ∧ st.currentBlock ≠ [] ∧
          blockSize < st.currentBlockLength + m.mes.length) ∧
    ((genBlocksStep digest blockSize st m).blocks ≠ st.blocks →
        (genBlocksStep digest blockSize st m).blocks
          = st.blocks ++ [⟨getBlockHash digest st.currentBlock, st.currentBlock⟩] ∧
        (genBlocksStep digest blockSize st m).currentBlock = [toBlockMsg m]) ∧
    ((processStep digest blockSize st m).blocks ≠ st.blocks ↔
        st.currentBlock ≠ [] ∧
          (blockSize < st.currentBlockLength + m.mes.length ∨
            100 < st.currentBlock.length)) ∧
    ((processStep digest blockSize st m).blocks ≠ st.blocks →
        (processStep digest blockSize st m).blocks
          = st.blocks ++ [⟨getBlockHash digest st.currentBlock, st.currentBlock⟩] ∧
        (processStep digest blockSize st m).currentBlock
          = if m.mes.length ≠ 0 then [toBlockMsg m] else []) := by
  have hlen_ne : st.currentBlock ≠ [] ↔ 0 < st.currentBlock.length := by
    rcases st.currentBlock with _ | ⟨a, t⟩ <;> simp
  constructor
  · by_cases hsys : m.is_system
    · simp [genBlocksStep, hsys]
    · by_cases hmes : m.mes.length = 0
      · simp [genBlocksStep, hsys, hmes]
      · by_cases hclose : 0 < st.currentBlock.length ∧
            blockSize < st.currentBlockLength + m.mes.length
        · simp only [genBlocksStep, if_neg hsys, if_neg hmes, if_pos hclose]
          constructor
          · intro _
            exact ⟨by simpa using hsys, hmes, hlen_ne.mpr hclose.1, hclose.2⟩
          · intro _
            exact append_singleton_ne _ _
        · simp only [genBlocksStep, if_neg hsys, if_neg hmes, if_neg hclose]
          rw [not_and_or] at hclose
          constructor
          · intro hne
            exact absurd rfl hne
          · rintro ⟨-, -, hne, hlt⟩
            rcases hclose with hnil | hfits
            · exact absurd (hlen_ne.mp hne) hnil
            · exact absurd hlt hfits
  refine ⟨?_, ?_, ?_⟩
  · by_cases hsys : m.is_system
    · intro hne
      simp [genBlocksStep, hsys] at hne
    · by_cases hmes : m.mes.length = 0
      · intro hne
        simp [genBlocksStep, hsys, hmes] at hne
      · by_cases hclose : 0 < st.currentBlock.length ∧
            blockSize < st.currentBlockLength + m.mes.length
        · intro _
          simp only [genBlocksStep, if_neg hsys, if_neg hmes, if_pos hclose]
          exact ⟨by simp, by simp⟩
        · intro hne
          simp only [genBlocksStep, if_neg hsys, if_neg hmes, if_neg hclose] at hne
          exact absurd rfl hne
  · by_cases hclose : 0 < st.currentBlock.length ∧
        (blockSize < st.currentBlockLength + m.mes.length ∨
          100 < st.currentBlock.length)
    · constructor
      · intro _
        exact ⟨hlen_ne.mpr hclose.1, hclose.2⟩
      · intro _
        simp only [processStep, if_pos hclose]
        by_cases hmes : 0 < m.mes.length
        · simp only [if_pos hmes]
          exact append_singleton_ne _ _
        · simp only [if_neg hmes]
          exact append_singleton_ne _ _
    · simp only [processStep, if_neg hclose]
      rw [not_and_or] at hclose
      constructor
      · intro hne
        by_cases hmes : 0 < m.mes.length
        · simp only [if_pos hmes] at hne
          exact absurd rfl hne
        · simp only [if_neg hmes] at hne
          exact absurd rfl hne
      · rintro ⟨hne, hor⟩
        rcases hclose with hnil | hfits
        · exact absurd (hlen_ne.mp hne) hnil
        · exact absurd hor hfits
  · by_cases hclose : 0 < st.currentBlock.length ∧
        (blockSize < st.currentBlockLength + m.mes.length ∨
          100 < st.currentBlock.length)
    · intro _
      simp only [processStep, if_pos hclose]
      by_cases hmes : 0 < m.mes.length
      · have hne0 : m.mes.length ≠ 0 := by omega
        simp only [if_pos hmes, if_pos hne0]
        exact ⟨by simp, by simp⟩
      · have h0 : m.mes.length = 0 := by omega
        simp only [if_neg hmes, h0]
        exact ⟨rfl, by simp⟩
    · intro hne
      simp only [processStep, if_neg hclose] at hne
      by_cases hmes : 0 < m.mes.length
      · simp only [if_pos hmes] at hne
        exact absurd rfl hne
      · simp only [if_neg hmes] at hne
        exact absurd rfl hne

lemma truncTake_spec (remaining : Nat) :
    ∀ (l : List Message) (currentChars : Nat),
      ∃ j, j ≤ l.length ∧ truncTake remaining currentChars l = l.take j ∧
        (j = 0 ∨ currentChars + ((l.take j).map msgChars).sum ≤ remaining) ∧
        (∀ m rest, l.drop j = m :: rest →
          remaining < currentChars + ((l.take j).map msgChars).sum + msgChars m)
  | [], c => ⟨0, by simp, by simp [truncTake], Or.inl rfl, by simp⟩
  | m :: t, c => by
    by_cases hfit : c + msgChars m ≤ remaining
    · obtain ⟨j, hj, heq, hsum, hstop⟩ := truncTake_spec remaining t (c + msgChars m)
      refine ⟨j + 1, by simpa using hj, ?_, ?_, ?_⟩
      · simp only [truncTake, if_pos hfit, heq, List.take_succ_cons]
      · refine Or.inr ?_
        rw [List.take_succ_cons]
        simp only [List.map_cons, List.sum_cons]
        rcases hsum with rfl | hs
        · simpa using hfit
        · omega
      · intro mm rest hdrop
        rw [List.drop_succ_cons] at hdrop
        have := hstop mm rest hdrop
        rw [List.take_succ_cons]
        simp only [List.map_cons, List.sum_cons]
        omega
    · refine ⟨0, by simp, by simp [truncTake, hfit], Or.inl rfl, ?_⟩
      intro mm rest hdrop
      simp only [List.drop_zero] at hdrop
      obtain ⟨rfl, rfl⟩ := List.cons.inj hdrop
      simp only [List.take_zero, List.map_nil, List.sum_nil, Nat.add_zero]
      omega

/-- C6 (amended): the composer computes
`remainingBudget = max(0, historyBudgetChars * 4 - len(templateResult))`
and walks the recent messages from most recent to oldest, accumulating
per message the cost `(len(name) + 2 if the name is non-empty, else 0)
+ len(text)` — NOT unconditionally `len(name) + 2 + len(text)` as the
claim put it — keeping a message only while the running total stays
within `remainingBudget` and stopping at the first message that would
overflow; the kept messages are a contiguous suffix (`drop k`) of the
input returned in original chronological order, their summed cost is
within the budget, and when anything was dropped the newest dropped
message would indeed have overflowed. -/
theorem c6_truncation (historySize : Nat) (templateResult : String)
    (chatHistory : List Message) :
    (remainingCharsForHistory historySize templateResult : Int)
        = max 0 ((historySize : Int) * 4 - (templateResult.length : Int)) ∧
    ∃ k, k ≤ chatHistory.length ∧
      truncateHistory (remainingCharsForHistory historySize templateResult) chatHistory
        = chatHistory.drop k ∧
      ((chatHistory.drop k).map msgChars).sum
          ≤ remainingCharsForHistory historySize templateResult ∧
      (k = 0 ∨ ∃ m, chatHistory.drop (k - 1) = m :: chatHistory.drop k ∧
        remainingCharsForHistory historySize templateResult
          < msgChars m + ((chatHistory.drop k).map msgChars).sum) := by
  set remaining := remainingCharsForHistory historySize templateResult with hrem
  constructor
  · rw [hrem]
    unfold remainingCharsForHistory
    rcases le_total templateResult.length (historySize * 4) with hle | hle
    · rw [max_eq_right (by omega : (0 : Int) ≤ (historySize : Int) * 4 - templateResult.length)]
      omega
    · rw [max_eq_left (by omega : ((historySize : Int) * 4 - templateResult.length) ≤ 0)]
      omega
  · obtain ⟨j, hj, heq, hsum, hstop⟩ := truncTake_spec remaining chatHistory.reverse 0
    rw [List.length_reverse] at hj
    have htake : chatHistory.reverse.take j = (chatHistory.drop (chatHistory.length - j)).reverse := by
      rw [List.take_reverse]
    set k := chatHistory.length - j with hk
    have hkept : truncateHistory remaining chatHistory = chatHistory.drop k := by
      rw [truncateHistory, heq, htake, List.reverse_reverse]
    have hsum_eq : ((chatHistory.reverse.take j).map msgChars).sum
        = ((chatHistory.drop k).map msgChars).sum := by
      rw [htake, List.map_reverse, List.sum_reverse]
    refine ⟨k, Nat.sub_le _ _, hkept, ?_, ?_⟩
    · rcases hsum with rfl | hs
      · have : k = chatHistory.length := by omega
        rw [this, List.drop_length]
        simp
      · rw [← hsum_eq]
        omega
    · by_cases hk0 : k = 0
      · exact Or.inl hk0
      · refine Or.inr ?_
        have hjlt : j < chatHistory.length := by omega
        have hdropne : chatHistory.reverse.drop j ≠ [] := by
          intro hnil
          have := congrArg List.length hnil
          simp at this
          omega
        rcases hd : chatHistory.reverse.drop j with _ | ⟨m, rest⟩
        · exact absurd hd hdropne
        refine ⟨m, ?_, ?_⟩
        · have h1 : (chatHistory.take k).reverse = m :: rest := by
            rw [hk, ← List.drop_reverse]
            exact hd
          have htk : chatHistory.take k = rest.reverse ++ [m] := by
            have h2 := congrArg List.reverse h1
            rw [List.reverse_reverse, List.reverse_cons] at h2
            exact h2
          have hlen_rest : rest.reverse.length = k - 1 := by
            have h3 := congrArg List.length htk
            rw [List.length_take] at h3
            simp only [List.length_append, List.length_reverse,
              List.length_singleton] at h3
            simp only [List.length_reverse]
            omega
          have hsplit : chatHistory = rest.reverse ++ ([m] ++ chatHistory.drop k) := by
            conv_lhs => rw [← List.take_append_drop k chatHistory]
            rw [htk, List.append_assoc]
          calc chatHistory.drop (k - 1)
              = (rest.reverse ++ ([m] ++ chatHistory.drop k)).drop (k - 1) := by
                rw [← hsplit]
            _ = [m] ++ chatHistory.drop k := by rw [← hlen_rest, List.drop_left]
            _ = m :: chatHistory.drop k := rfl
        · have h4 := hstop m rest hd
          rw [hsum_eq] at h4
          omega

/-- C6 counterexample: with `historyBudgetChars = 1` and a 3-character
template result the remaining budget is `max(0, 4 - 3) = 1`; for the
single message with empty name and text `"a"` the code charges
`0 + 1 = 1` and keeps it, but the claim's accumulation formula
`len(name) + 2 + len(text) = 3` exceeds the budget of 1, so under the
claim the kept running total would NOT stay ≤ remainingBudget —
refuting the claimed per-message cost. -/
theorem c6_counterexample :
    remainingCharsForHistory 1 "abc" = 1 ∧
    truncateHistory (remainingCharsForHistory 1 "abc") [c6Message] = [c6Message] ∧
    msgChars c6Message = 1 ∧
    remainingCharsForHistory 1 "abc"
      < c6Message.name.length + 2 + c6Message.mes.length := by decide

lemma summarizeGo_length (dbOk : Bool) (api : List BlockMsg → Option String) :
    ∀ (blocks : List Block) (i : Nat) (st : CacheState),
      (summarizeGo dbOk api i st blocks).summaries.length = blocks.length
  | [], _, _ => rfl
  | b :: rest, i, st => by
    simp only [summarizeGo, List.length_cons]
    rw [summarizeGo_length dbOk api rest (i + 1) _]

lemma summarizeGo_append (dbOk : Bool) (api : List BlockMsg → Option String) :
    ∀ (l1 l2 : List Block) (i : Nat) (st : CacheState),
      summarizeGo dbOk api i st (l1 ++ l2)
        = { summaries := (summarizeGo dbOk api i st l1).summaries
              ++ (summarizeGo dbOk api (i + l1.length)
                    (summarizeGo dbOk api i st l1).state l2).summaries,
            hasError := (summarizeGo dbOk api i st l1).hasError
              || (summarizeGo dbOk api (i + l1.length)
                    (summarizeGo dbOk api i st l1).state l2).hasError,
            state := (summarizeGo dbOk api (i + l1.length)
                    (summarizeGo dbOk api i st l1).state l2).state }
  | [], l2, i, st => by simp [summarizeGo]
  | b :: t, l2, i, st => by
    have ih := summarizeGo_append dbOk api t l2 (i + 1)
      (processBlockState dbOk api st i b).2.2
    have hidx : i + 1 + t.length = i + (t.length + 1) := by omega
    rw [hidx] at ih
    simp only [List.cons_append, summarizeGo, List.append_eq, ih, List.length_cons,
      Bool.or_assoc]

lemma summarizeGo_step_at (dbOk : Bool) (api : List BlockMsg → Option String)
    (blocks : List Block) (st : CacheState) (j : Nat) (b : Block)
    (hb : blocks[j]? = some b) :
    (summarizeAllBlocks dbOk api st blocks).summaries[j]?
      = some (processBlockState dbOk api
          (summarizeGo dbOk api 0 st (blocks.take j)).state j b).1 ∧
    ((processBlockState dbOk api
          (summarizeGo dbOk api 0 st (blocks.take j)).state j b).2.1 = true →
      (summarizeAllBlocks dbOk api st blocks).hasError = true) := by
  obtain ⟨hjlt, hbj⟩ := List.getElem?_eq_some.mp hb
  have hsplit : blocks = blocks.take j ++ (b :: blocks.drop (j + 1)) := by
    conv_lhs => rw [← List.take_append_drop j blocks]
    congr 1
    rw [List.drop_eq_getElem_cons hjlt, hbj]
  have hlen1 : (blocks.take j).length = j := by
    rw [List.length_take]
    omega
  have happ := summarizeGo_append dbOk api (blocks.take j)
    (b :: blocks.drop (j + 1)) 0 st
  rw [hlen1, Nat.zero_add] at happ
  have hslen : (summarizeGo dbOk api 0 st (blocks.take j)).summaries.length = j := by
    rw [summarizeGo_length, hlen1]
  constructor
  · rw [summarizeAllBlocks]
    conv_lhs => rw [hsplit]
    rw [happ]
    simp only [summarizeGo]
    rw [List.getElem?_append_right (by omega : (summarizeGo dbOk api 0 st
      (blocks.take j)).summaries.length ≤ j)]
    rw [hslen]
    simp
  · intro he
    rw [summarizeAllBlocks]
    conv_lhs => rw [hsplit]
    rw [happ]
    simp only [summarizeGo, he]
    simp

/-- C1 (amended): for every block list, initial cache state, durable
outcome and client behaviour, the summaries array of
`summarizeAllBlocks` has the same length and order as the blocks array,
and at every index `j` (with `stPre` the cache state reached before
block `j`): on a cache miss a `null` client result yields exactly the
placeholder `"[Summary generation failed for block j+1]"` with
`hadError = true`; a client result that is one of the client's own
bracketed `"[Error:..."` strings is kept verbatim as the result — NOT
replaced by the placeholder — with `hadError = true`; a clean client
result is kept as the genuine fresh summary; and a cache hit keeps the
genuine cached summary.  Processing always continues over all blocks. -/
theorem c1_partial_failure_containment (dbOk : Bool)
    (api : List BlockMsg → Option String) (st : CacheState) (blocks : List Block) :
    (summarizeAllBlocks dbOk api st blocks).summaries.length = blocks.length ∧
    ∀ j b, blocks[j]? = some b →
      ((getSummaryFromCache dbOk
            (summarizeGo dbOk api 0 st (blocks.take j)).state b.hash).1 = none →
          (api b.details = none →
              (summarizeAllBlocks dbOk api st blocks).summaries[j]?
                  = some (failPlaceholder (j + 1)) ∧
              (summarizeAllBlocks dbOk api st blocks).hasError = true) ∧
          (∀ s, api b.details = some s → strStartsWith s "[Error:" = true →
              (summarizeAllBlocks dbOk api st blocks).summaries[j]? = some s ∧
              (summarizeAllBlocks dbOk api st blocks).hasError = true) ∧
          (∀ s, api b.details = some s → strStartsWith s "[Error:" = false →
              (summarizeAllBlocks dbOk api st blocks).summaries[j]? = some s)) ∧
      (∀ v, (getSummaryFromCache dbOk
            (summarizeGo dbOk api 0 st (blocks.take j)).state b.hash).1 = some v →
          (summarizeAllBlocks dbOk api st blocks).summaries[j]? = some v) := by
  refine ⟨by rw [summarizeAllBlocks, summarizeGo_length], ?_⟩
  intro j b hb
  obtain ⟨hidx, herr⟩ := summarizeGo_step_at dbOk api blocks st j b hb
  rcases hg : getSummaryFromCache dbOk
      (summarizeGo dbOk api 0 st (blocks.take j)).state b.hash with ⟨res, st2⟩
  constructor
  · intro hmiss
    have hres : res = none := hmiss
    subst hres
    refine ⟨?_, ?_, ?_⟩
    · intro hapi
      have hstep : processBlockState dbOk api
          (summarizeGo dbOk api 0 st (blocks.take j)).state j b
            = (failPlaceholder (j + 1), true, st2) := by
        simp [processBlockState, hg, hapi]
      rw [hstep] at hidx herr
      exact ⟨hidx, herr rfl⟩
    · intro s hapi hpre
      have hstep : processBlockState dbOk api
          (summarizeGo dbOk api 0 st (blocks.take j)).state j b = (s, true, st2) := by
        simp [processBlockState, hg, hapi, hpre]
      rw [hstep] at hidx herr
      exact ⟨hidx, herr rfl⟩
    · intro s hapi hpre
      have hstep : processBlockState dbOk api
          (summarizeGo dbOk api 0 st (blocks.take j)).state j b
            = (s, false, (saveSummaryToCache (dbOutcomeOf dbOk) st2 b.hash s).2) := by
        simp [processBlockState, hg, hapi, hpre]
      rw [hstep] at hidx
      exact hidx
  · intro v hv
    have hres : res = some v := hv
    subst hres
    have hstep : processBlockState dbOk api
        (summarizeGo dbOk api 0 st (blocks.take j)).state j b = (v, false, st2) := by
      simp [processBlockState, hg]
    rw [hstep] at hidx
    exact hidx

/-- C1 counterexample: one uncached block whose client call fails with
HTTP 500.  `callSummarizationApi` returns the string
`"[Error: API response 500]"`; `summarizeAllBlocks` keeps that string as
the block's result (with `hadError = true`), which is not the claimed
placeholder `"[Summary generation failed for block 1]"` — so a failing
client call does not always produce the claimed placeholder. -/
theorem c1_counterexample :
    (summarizeAllBlocks true
        (fun _ => callSummarizationApi "u" (FetchOutcome.httpError 500))
        ⟨[], []⟩ [c1Block]).summaries = ["[Error: API response 500]"] ∧
    (summarizeAllBlocks true
        (fun _ => callSummarizationApi "u" (FetchOutcome.httpError 500))
        ⟨[], []⟩ [c1Block]).hasError = true ∧
    lookupAssoc (CacheState.mk [] []).mem c1Block.hash = none ∧
    lookupAssoc (CacheState.mk [] []).db c1Block.hash = none ∧
    callSummarizationApi "u" (FetchOutcome.httpError 500)
      = some "[Error: API response 500]" ∧
    "[Error: API response 500]" ≠ failPlaceholder 1 := by decide

lemma callSummarizationApi_ne_empty (apiUrl : String) (o : FetchOutcome) (s : String)
    (h : callSummarizationApi apiUrl o = some s) : s ≠ "" := by
  unfold callSummarizationApi at h
  split at h
  · exact Option.noConfusion h
  · cases o with
    | netError =>
      simp only [Option.some.injEq] at h
      subst h
      decide
    | httpError status =>
      simp only [Option.some.injEq] at h
      subst h
      intro habs
      have := congrArg String.length habs
      rw [String.length_append, String.length_append] at this
      simp at this
      exact absurd this.1.1 (by decide)
    | ok body =>
      cases body with
      | none => exact Option.noConfusion h
      | some t =>
        simp only at h
        split at h
        · exact Option.noConfusion h
        · rename_i hne
          simp only [Option.some.injEq] at h
          subst h
          exact hne

lemma getSummaryFromCache_none_state (dbOk : Bool) (st : CacheState) (h : String)
    (hmiss : (getSummaryFromCache dbOk st h).1 = none) :
    getSummaryFromCache dbOk st h = (none, st) := by
  unfold getSummaryFromCache at hmiss ⊢
  split at hmiss
  · exact Option.noConfusion hmiss
  · split at hmiss
    · exact Option.noConfusion hmiss
    · rfl

lemma getSummaryFromCache_no_new_empty (dbOk : Bool) (st : CacheState) (h : String) :
    (getSummaryFromCache dbOk st h).2.db = st.db ∧
    (∀ k, lookupAssoc (getSummaryFromCache dbOk st h).2.mem k = some "" →
        lookupAssoc st.mem k = some "" ∨ lookupAssoc st.db k = some "") := by
  unfold getSummaryFromCache
  split
  · exact ⟨rfl, fun k hk => Or.inl hk⟩
  · rcases hd : getItemFromDB dbOk st h with _ | s
    · exact ⟨rfl, fun k hk => Or.inl hk⟩
    · refine ⟨rfl, ?_⟩
      intro k hk
      simp only [insertAssoc, lookupAssoc] at hk
      split at hk
      · rename_i hkh
        right
        simp only [Option.some.injEq] at hk
        subst hk
        subst hkh
        unfold getItemFromDB at hd
        split at hd
        · exact hd
        · exact Option.noConfusion hd
      · exact Or.inl hk

lemma saveSummaryToCache_no_new_empty (outcome : DbWriteOutcome) (st : CacheState)
    (h s : String) (hs : s ≠ "") :
    (∀ k, lookupAssoc (saveSummaryToCache outcome st h s).2.mem k = some "" →
        lookupAssoc st.mem k = some "") ∧
    (∀ k, lookupAssoc (saveSummaryToCache outcome st h s).2.db k = some "" →
        lookupAssoc st.db k = some "") := by
  cases outcome <;>
    · refine ⟨?_, ?_⟩ <;>
        intro k hk <;>
        · simp only [saveSummaryToCache, setItemInDB, insertAssoc, lookupAssoc] at hk <;>
          first
            | exact hk
            | (split at hk
               · rename_i hkh
                 simp only [Option.some.injEq] at hk
                 exact absurd hk hs
               · exact hk)

lemma processBlockState_no_new_empty (dbOk : Bool)
    (api : List BlockMsg → Option String)
    (hapi : ∀ d s, api d = some s → s ≠ "")
    (st : CacheState) (i : Nat) (b : Block) :
    (∀ h, lookupAssoc (processBlockState dbOk api st i b).2.2.mem h = some "" →
        lookupAssoc st.mem h = some "" ∨ lookupAssoc st.db h = some "") ∧
    (∀ h, lookupAssoc (processBlockState dbOk api st i b).2.2.db h = some "" →
        lookupAssoc st.db h = some "") := by
  obtain ⟨hdb_eq, hmem_get⟩ := getSummaryFromCache_no_new_empty dbOk st b.hash
  rcases hg : getSummaryFromCache dbOk st b.hash with ⟨res, st2⟩
  rw [hg] at hdb_eq hmem_get
  cases res with
  | some v =>
    simp only [processBlockState, hg]
    exact ⟨hmem_get, fun h hk => hdb_eq ▸ hk⟩
  | none =>
    have hst2 : st2 = st := by
      have := getSummaryFromCache_none_state dbOk st b.hash (by rw [hg])
      rw [hg] at this
      exact congrArg Prod.snd this
    subst hst2
    rcases ha : api b.details with _ | s
    · simp only [processBlockState, hg, ha]
      exact ⟨fun h hk => Or.inl hk, fun h hk => hk⟩
    · by_cases hpre : strStartsWith s "[Error:" = true
      · simp only [processBlockState, hg, ha, if_pos hpre]
        exact ⟨fun h hk => Or.inl hk, fun h hk => hk⟩
      · rw [Bool.not_eq_true] at hpre
        simp only [processBlockState, hg, ha, hpre, Bool.false_eq_true, if_false]
        obtain ⟨hm, hd⟩ := saveSummaryToCache_no_new_empty (dbOutcomeOf dbOk) st2 b.hash s
          (hapi b.details s ha)
        exact ⟨fun h hk => Or.inl (hm h hk), fun h hk => hd h hk⟩

lemma summarizeGo_no_new_empty (dbOk : Bool)
    (api : List BlockMsg → Option String)
    (hapi : ∀ d s, api d = some s → s ≠ "") :
    ∀ (blocks : List Block) (i : Nat) (st : CacheState),
      (∀ h, lookupAssoc (summarizeGo dbOk api i st blocks).state.mem h = some "" →
          lookupAssoc st.mem h = some "" ∨ lookupAssoc st.db h = some "") ∧
      (∀ h, lookupAssoc (summarizeGo dbOk api i st blocks).state.db h = some "" →
          lookupAssoc st.db h = some "")
  | [], i, st => ⟨fun _ hk => Or.inl hk, fun _ hk => hk⟩
  | b :: rest, i, st => by
    obtain ⟨ihm, ihd⟩ := summarizeGo_no_new_empty dbOk api hapi rest (i + 1)
      (processBlockState dbOk api st i b).2.2
    obtain ⟨shm, shd⟩ := processBlockState_no_new_empty dbOk api hapi st i b
    constructor
    · intro h hk
      simp only [summarizeGo] at hk
      rcases ihm h hk with hk2 | hk2
      · exact shm h hk2
      · exact Or.inr (shd h hk2)
    · intro h hk
      simp only [summarizeGo] at hk
      exact shd h (ihd h hk)

/-- C10: when the endpoint answers with HTTP success but the body's
`summary` field is absent or the empty string, the client returns the
null failure result; consequently, on a cache miss the orchestrator
substitutes the failure placeholder for that block, sets the error flag,
and leaves the cache state untouched for that block; and across a whole
`summarizeAllBlocks` run no cache entry with an empty summary is ever
created through the API path — an empty value in either layer afterwards
was already reachable in the initial state. -/
theorem c10_no_empty_summary_cached (apiUrl : String)
    (outcome : List BlockMsg → FetchOutcome) (dbOk : Bool) (st : CacheState)
    (blocks : List Block) :
    (∀ d, (outcome d = FetchOutcome.ok none ∨ outcome d = FetchOutcome.ok (some "")) →
        clientApi apiUrl outcome d = none) ∧
    (∀ j b, blocks[j]? = some b →
        (getSummaryFromCache dbOk
            (summarizeGo dbOk (clientApi apiUrl outcome) 0 st (blocks.take j)).state
            b.hash).1 = none →
        clientApi apiUrl outcome b.details = none →
        ((summarizeAllBlocks dbOk (clientApi apiUrl outcome) st blocks).summaries[j]?
            = some (failPlaceholder (j + 1)) ∧
          (summarizeAllBlocks dbOk (clientApi apiUrl outcome) st blocks).hasError
            = true ∧
          (processBlockState dbOk (clientApi apiUrl outcome)
              (summarizeGo dbOk (clientApi apiUrl outcome) 0 st
                (blocks.take j)).state j b).2.2
            = (summarizeGo dbOk (clientApi apiUrl outcome) 0 st
                (blocks.take j)).state)) ∧
    (∀ h, lookupAssoc
        (summarizeAllBlocks dbOk (clientApi apiUrl outcome) st blocks).state.mem h
          = some "" →
        lookupAssoc st.mem h = some "" ∨ lookupAssoc st.db h = some "") ∧
    (∀ h, lookupAssoc
        (summarizeAllBlocks dbOk (clientApi apiUrl outcome) st blocks).state.db h
          = some "" →
        lookupAssoc st.db h = some "") := by
  have hapi : ∀ d s, clientApi apiUrl outcome d = some s → s ≠ "" :=
    fun d s h => callSummarizationApi_ne_empty apiUrl (outcome d) s h
  refine ⟨?_, ?_, ?_, ?_⟩
  · intro d hd
    rcases hd with hd | hd <;>
      · rw [clientApi]
        rw [hd]
        simp [callSummarizationApi]
  · intro j b hb hmiss hapinone
    obtain ⟨hidx, herr⟩ := summarizeGo_step_at dbOk (clientApi apiUrl outcome)
      blocks st j b hb
    have hgst := getSummaryFromCache_none_state dbOk
      (summarizeGo dbOk (clientApi apiUrl outcome) 0 st (blocks.take j)).state
      b.hash hmiss
    have hstep : processBlockState dbOk (clientApi apiUrl outcome)
        (summarizeGo dbOk (clientApi apiUrl outcome) 0 st (blocks.take j)).state j b
          = (failPlaceholder (j + 1), true,
              (summarizeGo dbOk (clientApi apiUrl outcome) 0 st
                (blocks.take j)).state) := by
      simp [processBlockState, hgst, hapinone]
    rw [hstep] at hidx herr
    exact ⟨hidx, herr rfl, by rw [hstep]⟩
  · exact (summarizeGo_no_new_empty dbOk (clientApi apiUrl outcome) hapi blocks 0 st).1
  · exact (summarizeGo_no_new_empty dbOk (clientApi apiUrl outcome) hapi blocks 0 st).2

lemma orchStep_inv (triggerThreshold : Nat) (s1 s2 : OrchState)
    (hstep : OrchStep triggerThreshold s1 s2)
    (hinv : s1.activePasses ≤ 1 ∧ (s1.inApiCall = true ↔ s1.activePasses = 1)) :
    s2.activePasses ≤ 1 ∧ (s2.inApiCall = true ↔ s2.activePasses = 1) := by
  cases hstep with
  | trigger chat =>
    simp only [checkAndSummarizeEntry]
    split
    · exact hinv
    · rename_i hguard
      simp only [Bool.or_eq_true, Bool.not_eq_true', not_or] at hguard
      have hoff : s1.inApiCall = false := by
        simpa using hguard.2
      have hzero : s1.activePasses = 0 := by
        have h1 := hinv.2
        rw [hoff] at h1
        simp at h1
        omega
      split
      · simp [hzero]
      · exact hinv
  | bodyUpdate n h => exact hinv
  | finish success h =>
    obtain ⟨hle, hiff⟩ := hinv
    refine ⟨by simp [passFinish]; omega, ?_⟩
    simp only [passFinish]
    constructor
    · intro habs
      exact absurd habs (by simp)
    · intro habs
      omega
  | setEnabled b => exact hinv

lemma orchReachable_inv (triggerThreshold : Nat) (st : OrchState)
    (h : OrchReachable triggerThreshold st) :
    st.activePasses ≤ 1 ∧ (st.inApiCall = true ↔ st.activePasses = 1) := by
  induction h with
  | refl => refine ⟨by simp [initOrchState], by simp [initOrchState]⟩
  | tail hsteps hstep ih => exact orchStep_inv _ _ _ hstep ih

/-- C8: while a pass is in flight (`inApiCall = true`), any trigger of
the entry point is a no-op — it returns immediately with the state
unchanged (so nothing is segmented, no client is called, no field is
modified, and the state space holds no queue to defer it to); in every
reachable state at most one pass is active, so two passes never run
concurrently (the entry's check-and-set prefix being atomic under JS
run-to-completion); and the finally block clears the flag whether the
pass completed or failed. -/
theorem c8_in_progress_guard (triggerThreshold : Nat) (st : OrchState)
    (chat : List Message) :
    (st.inApiCall = true →
        checkAndSummarizeEntry triggerThreshold st chat
          = (TriggerResult.noop, st)) ∧
    (OrchReachable triggerThreshold st → st.activePasses ≤ 1) ∧
    (passFinish st).inApiCall = false := by
  refine ⟨?_, ?_, rfl⟩
  · intro hflag
    unfold checkAndSummarizeEntry
    rw [if_pos]
    rw [hflag]
    simp
  · intro hreach
    exact (orchReachable_inv triggerThreshold st hreach).1
